import Mathlib

/-!
Verification of the N-Queens CSP engine (Project-2): constraint model,
AC3 arc-consistency propagator, MRV/LCV ordering heuristics, backtracking
search driver and solver orchestration.

The Python source is embedded shallowly:
* dictionaries keyed by row indices `0..n-1` become lists indexed by `Nat`
  (`List.getD i` plays the role of `dict[i]`, `List.set` of `dict[i] = v`);
* Python `int` values become `Int`;
* a Python `set` of candidate columns becomes a `List Int` carrying its
  iteration order (relevant only to the stable sorts of the heuristics);
* in-place mutation becomes explicit state passing: every function returns
  the post-call state of each argument the source code mutates;
* the two genuinely recursive loops (the AC3 work queue, which re-enqueues
  arcs, and the backtracking driver) take an explicit fuel argument; a
  theorem below shows the fuel chosen for the AC3 queue always suffices.
-/

namespace NQueens

/-- Embedding of `conflict(r1, c1, r2, c2)` from `ac3.py`: queens at `(r1, c1)` and
`(r2, c2)` attack each other iff same column or same diagonal. -/
def conflict (r1 c1 r2 c2 : Int) : Bool :=
  c1 == c2 || (r1 - r2).natAbs == (c1 - c2).natAbs

/-- The per-row domains `{row: set(cols)}`, as a list indexed by row. -/
abbrev Domains := List (List Int)

/-- The neighbor relation `{row: [other rows]}`, as a list indexed by row. -/
abbrev Neighbors := List (List Nat)

/-- The partial assignment `{row: col or None}`, as a list indexed by row. -/
abbrev Assignment := List (Option Int)

/-- Comparison used by the in-place stable sort in `select_unassigned_row`:
Python sorts by the key `(len(domains[r]), -len(neighbors[r]))`. -/
def mrvLe (domains : Domains) (neighbors : Neighbors) (r1 r2 : Nat) : Bool :=
  decide ((domains.getD r1 []).length < (domains.getD r2 []).length) ||
    (decide ((domains.getD r1 []).length = (domains.getD r2 []).length) &&
      decide ((neighbors.getD r2 []).length ≤ (neighbors.getD r1 []).length))

/-- Embedding of `select_unassigned_row` from `heuristics.py` (MRV + tie-break). Python
stably sorts the caller's `unassigned_rows` list in place by the key
`(len(domains[r]), -len(neighbors[r]))` and returns its first element; the
embedding uses `List.insertionSort` (extensionally the unique stable sort
by this key) and returns the selected row together with the post-call
state of the `unassigned_rows` argument. -/
def select_unassigned_row (domains : Domains) (unassigned_rows : List Nat)
    (neighbors : Neighbors) : Nat × List Nat :=
  let sorted := unassigned_rows.insertionSort
    (fun r1 r2 => mrvLe domains neighbors r1 r2 = true)
  (sorted.headD 0, sorted)

/-- Embedding of `constraining_cost(col)`, the inner helper of `order_domain_values`:
how many (neighbor, neighbor-domain-value) pairs conflict with placing
`col` in `row`. -/
def constraining_cost (row : Nat) (domains : Domains) (neighbors : Neighbors)
    (col : Int) : Nat :=
  ((neighbors.getD row []).map (fun nb =>
    ((domains.getD nb []).filter (fun v => conflict row col nb v)).length)).sum

/-- Embedding of `order_domain_values` from `heuristics.py` (LCV): copy the row's domain
into a fresh list and stably sort it by ascending constraining cost. -/
def order_domain_values (row : Nat) (domains : Domains)
    (neighbors : Neighbors) : List Int :=
  (domains.getD row []).insertionSort (fun c1 c2 =>
    constraining_cost row domains neighbors c1 ≤
      constraining_cost row domains neighbors c2)

/-- Whether value `vi` of row `Xi` has some value `vj` left in `Xj`'s domain
that does not conflict with it (the support test inside `revise`). -/
def hasSupport (domains : Domains) (Xi : Nat) (vi : Int) (Xj : Nat) : Bool :=
  (domains.getD Xj []).any (fun vj => !conflict Xi vi Xj vj)

/-- Embedding of `revise` from `ac3.py`: remove from `domains[Xi]` every value that
conflicts with all values in `domains[Xj]`; report whether anything was
removed. The embedding returns the post-call domains and the flag. -/
def revise (domains : Domains) (Xi Xj : Nat) : Domains × Bool :=
  let di := domains.getD Xi []
  (domains.set Xi (di.filter (fun vi => hasSupport domains Xi vi Xj)),
   di.any (fun vi => !hasSupport domains Xi vi Xj))

/-- The initial work queue of `AC3`: every arc `(r, nb)` for `r` in
`range n` and `nb` in `neighbors[r]`, in that order. -/
def initQueue (neighbors : Neighbors) (n : Nat) : List (Nat × Nat) :=
  (List.range n).flatMap (fun r => (neighbors.getD r []).map (fun nb => (r, nb)))

/-- Total number of values across all domains (the quantity AC3 strictly
shrinks whenever `revise` removes something). -/
def totalSize (domains : Domains) : Nat :=
  (domains.map List.length).sum

/-- Largest neighbor-list length; bounds how many arcs one removal can
re-enqueue. -/
def maxDeg (neighbors : Neighbors) : Nat :=
  (neighbors.map List.length).foldr Nat.max 0

/-- Fuel that provably suffices for the AC3 work-queue loop (see
`AC3_terminates`). -/
def ac3Fuel (domains : Domains) (neighbors : Neighbors)
    (queue : List (Nat × Nat)) : Nat :=
  queue.length + totalSize domains * (maxDeg neighbors + 1) + 1

/-- The work-queue loop of `AC3` from `ac3.py`, with explicit fuel: pop an
arc `(Xi, Xj)`, revise; on removal fail if `Xi`'s domain emptied, else
re-enqueue the arcs `(Xk, Xi)` for neighbors `Xk ≠ Xj` of `Xi`. -/
def AC3aux (neighbors : Neighbors) : Nat → Domains → List (Nat × Nat) →
    Option (Domains × Bool)
  | 0, _, _ => none
  | _ + 1, domains, [] => some (domains, true)
  | fuel + 1, domains, (Xi, Xj) :: rest =>
    let r := revise domains Xi Xj
    if r.2 then
      if (r.1.getD Xi []).isEmpty then some (r.1, false)
      else
        AC3aux neighbors fuel r.1
          (rest ++ ((neighbors.getD Xi []).filter (fun Xk => Xk != Xj)).map
            (fun Xk => (Xk, Xi)))
    else AC3aux neighbors fuel r.1 rest

/-- Embedding of `AC3` from `ac3.py`: enforce arc consistency over all arcs; `true` iff
no domain was emptied. The fuel `ac3Fuel` is proved sufficient in
`AC3_terminates`, so the `getD` default is never taken. -/
def AC3 (domains : Domains) (neighbors : Neighbors) (n : Nat) :
    Domains × Bool :=
  (AC3aux neighbors (ac3Fuel domains neighbors (initQueue neighbors n))
    domains (initQueue neighbors n)).getD (domains, false)

/-- The `unassigned_rows` list comprehension in `backtracking_search`. -/
def unassignedRows (assignment : Assignment) (n : Nat) : List Nat :=
  (List.range n).filter (fun r => (assignment.getD r none).isNone)

/-- The quick local check in `backtracking_search`: does placing `col` in
`row` conflict with any already-assigned row? -/
def conflictsWithAssigned (row : Nat) (col : Int) (assignment : Assignment)
    (n : Nat) : Bool :=
  (List.range n).any (fun r2 =>
    match assignment.getD r2 none with
    | some c2 => conflict row col r2 c2
    | none => false)

/-- The snapshot `saved_domains = {r: set(domains[r]) for r in range(n)}`
taken before a tentative assignment. -/
def snapshotDoms (domains : Domains) (n : Nat) : Domains :=
  (List.range n).map (fun r => domains.getD r [])

/-- The restore loop `for r in range(n): domains[r] = saved_domains[r]`
run on backtrack, applied to the current (post-AC3) domains. -/
def restoreDoms (current saved : Domains) : Nat → Domains
  | 0 => current
  | n + 1 => (restoreDoms current saved n).set n (saved.getD n [])

/-- The `for col in candidate_cols` loop of `backtracking_search`: try each
candidate column in LCV order; on failure of a branch, clear the row's
assignment entry and restore the domains from the snapshot. The recursive
body of `backtracking_search` is received as the continuation `bt`. -/
def btTryCols (bt : Domains → Assignment → Domains × Assignment × Bool)
    (neighbors : Neighbors) (n : Nat) (row : Nat) :
    Domains → Assignment → List Int → Domains × Assignment × Bool
  | domains, assignment, [] => (domains, assignment, false)
  | domains, assignment, col :: rest =>
    if conflictsWithAssigned row col assignment n then
      btTryCols bt neighbors n row domains assignment rest
    else
      let assignment1 := assignment.set row (some col)
      let saved_domains := snapshotDoms domains n
      let domains1 := domains.set row [col]
      let ac3res := AC3 domains1 neighbors n
      if ac3res.2 then
        let btres := bt ac3res.1 assignment1
        if btres.2.2 then btres
        else
          btTryCols bt neighbors n row (restoreDoms btres.1 saved_domains n)
            (btres.2.1.set row none) rest
      else
        btTryCols bt neighbors n row (restoreDoms ac3res.1 saved_domains n)
          (assignment1.set row none) rest

/-- Embedding of `backtracking_search` from `backtracking.py`, with explicit fuel
bounding the recursion depth (each recursive call consumes one unit; the
orchestration layer passes `n + 1`, enough for one frame per row plus the
final completeness check). Returns the post-call domains, the post-call
assignment, and the success flag. -/
def backtracking_search : Nat → Domains → Neighbors → Assignment → Nat →
    Domains × Assignment × Bool
  | 0, domains, _, assignment, _ => (domains, assignment, false)
  | fuel + 1, domains, neighbors, assignment, n =>
    let unassigned_rows := unassignedRows assignment n
    if unassigned_rows.isEmpty then (domains, assignment, true)
    else
      let row := (select_unassigned_row domains unassigned_rows neighbors).1
      let candidate_cols := order_domain_values row domains neighbors
      btTryCols (fun d a => backtracking_search fuel d neighbors a n)
        neighbors n row domains assignment candidate_cols

/-- Embedding of `solve_nqueens_csp` from `nqueens_csp.py`: build domains, neighbors and
an empty assignment for board size `n`, prune with one AC3 pass, then run
the backtracking search; `none` is the explicit "no solution" result. -/
def solve_nqueens_csp (n : Nat) : Option Assignment :=
  let domains : Domains :=
    (List.range n).map (fun _ => (List.range n).map (fun c : Nat => (c : Int)))
  let neighbors : Neighbors :=
    (List.range n).map (fun r => (List.range n).filter (fun x => x ≠ r))
  let assignment : Assignment := List.replicate n none
  let ac3res := AC3 domains neighbors n
  if ac3res.2 then
    let btres := backtracking_search (n + 1) ac3res.1 neighbors assignment n
    if btres.2.2 then some btres.2.1 else none
  else none

/-- Arc `(Xi, Xj)` is consistent: every value left in `Xi`'s domain has at
least one non-conflicting value in `Xj`'s domain. -/
def arcOk (domains : Domains) (Xi Xj : Nat) : Prop :=
  ∀ vi ∈ domains.getD Xi [], ∃ vj ∈ domains.getD Xj [],
    conflict Xi vi Xj vj = false

/-- Full arc consistency over the `n` variables and the neighbor relation. -/
def arcConsistent (domains : Domains) (neighbors : Neighbors) (n : Nat) :
    Prop :=
  ∀ Xi, Xi < n → ∀ Xj ∈ neighbors.getD Xi [], arcOk domains Xi Xj

/-- Well-formedness of a neighbor relation on `n` variables: neighbors are
in range, irreflexive and symmetric (all hold for the all-pairs relation
built by `solve_nqueens_csp`). -/
def nbrsOK (neighbors : Neighbors) (n : Nat) : Prop :=
  ∀ a, a < n → ∀ b ∈ neighbors.getD a [], b < n ∧ b ≠ a ∧
    a ∈ neighbors.getD b []

/-- Every queued arc joins a variable in range to one of its neighbors. -/
def queueWF (neighbors : Neighbors) (n : Nat)
    (queue : List (Nat × Nat)) : Prop :=
  ∀ p ∈ queue, p.1 < n ∧ p.2 ∈ neighbors.getD p.1 []

/-- The AC3 loop invariant: every arc is either still queued for revision
or already consistent. -/
def invAC (neighbors : Neighbors) (n : Nat) (domains : Domains)
    (queue : List (Nat × Nat)) : Prop :=
  ∀ Xi, Xi < n → ∀ Xj ∈ neighbors.getD Xi [],
    (Xi, Xj) ∈ queue ∨ arcOk domains Xi Xj

/-- No two assigned rows attack each other. -/
def noConflicts (assignment : Assignment) (n : Nat) : Prop :=
  ∀ r1, r1 < n → ∀ r2, r2 < n → r1 ≠ r2 → ∀ c1 c2,
    assignment.getD r1 none = some c1 → assignment.getD r2 none = some c2 →
    conflict r1 c1 r2 c2 = false

instance (domains : Domains) (Xi Xj : Nat) : Decidable (arcOk domains Xi Xj) := by
  unfold arcOk; infer_instance

instance (domains : Domains) (neighbors : Neighbors) (n : Nat) :
    Decidable (arcConsistent domains neighbors n) := by
  unfold arcConsistent; infer_instance

instance (neighbors : Neighbors) (n : Nat) : Decidable (nbrsOK neighbors n) := by
  unfold nbrsOK; infer_instance

/-- Every value in every domain is a column of the `n × n` board. -/
def colsInRange (domains : Domains) (n : Nat) : Prop :=
  ∀ i, ∀ v ∈ domains.getD i [], 0 ≤ v ∧ v < (n : Int)

/-- Every assigned column is a column of the `n × n` board. -/
def assignedInRange (assignment : Assignment) (n : Nat) : Prop :=
  ∀ r, r < n → ∀ c, assignment.getD r none = some c → 0 ≤ c ∧ c < (n : Int)

lemma getD_set_eq {α : Type} (l : List α) (i : Nat) (x dflt : α)
    (h : i < l.length) : (l.set i x).getD i dflt = x := by
  simp [List.getD_eq_getElem?_getD, List.getElem?_set, h]

lemma getD_set_ne {α : Type} (l : List α) {i j : Nat} (x dflt : α)
    (h : j ≠ i) : (l.set i x).getD j dflt = l.getD j dflt := by
  simp [List.getD_eq_getElem?_getD, List.getElem?_set_ne (Ne.symm h)]

lemma list_set_getD {α : Type} (l : List α) (i : Nat) (x : α) :
    l.set i (l.getD i x) = l := by
  induction l generalizing i with
  | nil => rfl
  | cons a t ih =>
    cases i with
    | zero => rfl
    | succ j => simpa [List.set, List.getD] using ih j

lemma headD_mem_of_ne_nil {α : Type} {l : List α} (h : l ≠ []) (dflt : α) :
    l.headD dflt ∈ l := by
  cases l with
  | nil => exact absurd rfl h
  | cons a t => exact List.mem_cons_self a t

lemma totalSize_set (d : Domains) (i : Nat) (l : List Int)
    (h : i < d.length) :
    totalSize (d.set i l) + (d.getD i []).length
      = totalSize d + l.length := by
  induction d generalizing i with
  | nil => simp at h
  | cons a t ih =>
    cases i with
    | zero => simp [totalSize, List.getD_cons_zero]; omega
    | succ j =>
      have hj : j < t.length := by simpa using h
      have := ih j hj
      simp only [List.set, totalSize, List.map_cons, List.sum_cons,
        List.getD_cons_succ] at *
      omega

lemma hasSupport_iff (d : Domains) (Xi : Nat) (vi : Int) (Xj : Nat) :
    hasSupport d Xi vi Xj = true ↔
      ∃ vj ∈ d.getD Xj [], conflict Xi vi Xj vj = false := by
  simp [hasSupport, List.any_eq_true, Bool.not_eq_true']

lemma revise_fst (d : Domains) (Xi Xj : Nat) :
    (revise d Xi Xj).1
      = d.set Xi ((d.getD Xi []).filter fun vi => hasSupport d Xi vi Xj) :=
  rfl

lemma revise_getD_self (d : Domains) (Xi Xj : Nat) :
    (revise d Xi Xj).1.getD Xi []
      = (d.getD Xi []).filter fun vi => hasSupport d Xi vi Xj := by
  rw [revise_fst]
  rcases Nat.lt_or_ge Xi d.length with h | h
  · exact getD_set_eq _ _ _ _ h
  · rw [List.set_eq_of_length_le h, List.getD_eq_default _ _ h]
    rfl

lemma revise_getD_ne (d : Domains) {Xi : Nat} (Xj : Nat) {j : Nat}
    (h : j ≠ Xi) : (revise d Xi Xj).1.getD j [] = d.getD j [] := by
  rw [revise_fst]; exact getD_set_ne _ _ _ h

lemma revise_length (d : Domains) (Xi Xj : Nat) :
    (revise d Xi Xj).1.length = d.length := by
  rw [revise_fst]; exact List.length_set d Xi _

lemma revise_subset (d : Domains) (Xi Xj : Nat) (i : Nat) (v : Int)
    (hv : v ∈ (revise d Xi Xj).1.getD i []) : v ∈ d.getD i [] := by
  rcases eq_or_ne i Xi with rfl | h
  · rw [revise_getD_self] at hv
    exact (List.mem_filter.mp hv).1
  · rwa [revise_getD_ne _ _ h] at hv

lemma revise_false_iff (d : Domains) (Xi Xj : Nat) :
    (revise d Xi Xj).2 = false ↔
      ∀ vi ∈ d.getD Xi [], hasSupport d Xi vi Xj = true := by
  simp [revise, List.any_eq_false]

lemma revise_fst_of_false (d : Domains) (Xi Xj : Nat)
    (h : (revise d Xi Xj).2 = false) : (revise d Xi Xj).1 = d := by
  rw [revise_fst, List.filter_eq_self.mpr ((revise_false_iff d Xi Xj).mp h)]
  exact list_set_getD d Xi []

lemma revise_true_iff (d : Domains) (Xi Xj : Nat) :
    (revise d Xi Xj).2 = true ↔
      ∃ vi ∈ d.getD Xi [], hasSupport d Xi vi Xj = false := by
  simp [revise, List.any_eq_true]

lemma revise_lt_length (d : Domains) (Xi Xj : Nat)
    (h : (revise d Xi Xj).2 = true) : Xi < d.length := by
  obtain ⟨vi, hvi, -⟩ := (revise_true_iff d Xi Xj).mp h
  by_contra hge
  rw [List.getD_eq_default _ _ (Nat.le_of_not_lt hge)] at hvi
  exact absurd hvi (List.not_mem_nil vi)

lemma revise_totalSize_lt (d : Domains) (Xi Xj : Nat)
    (h : (revise d Xi Xj).2 = true) :
    totalSize (revise d Xi Xj).1 < totalSize d := by
  have hXi := revise_lt_length d Xi Xj h
  obtain ⟨vi, hvi, hns⟩ := (revise_true_iff d Xi Xj).mp h
  have hlt : ((d.getD Xi []).filter
      fun vi => hasSupport d Xi vi Xj).length < (d.getD Xi []).length :=
    List.length_filter_lt_length_iff_exists.mpr ⟨vi, hvi, by simp [hns]⟩
  have := totalSize_set d Xi
    ((d.getD Xi []).filter fun vi => hasSupport d Xi vi Xj) hXi
  rw [revise_fst]
  omega

lemma revise_mem_kept (d : Domains) (Xi Xj : Nat) (v : Int)
    (hv : v ∈ (revise d Xi Xj).1.getD Xi []) :
    hasSupport d Xi v Xj = true := by
  rw [revise_getD_self] at hv
  exact (List.mem_filter.mp hv).2

lemma revise_mem_removed (d : Domains) (Xi Xj : Nat) (v : Int)
    (hv : v ∈ d.getD Xi []) (hv2 : v ∉ (revise d Xi Xj).1.getD Xi []) :
    hasSupport d Xi v Xj = false := by
  rw [revise_getD_self] at hv2
  by_contra hne
  exact hv2 (List.mem_filter.mpr ⟨hv, eq_true_of_ne_false hne⟩)

lemma conflict_comm (r1 c1 r2 c2 : Int) :
    conflict r1 c1 r2 c2 = conflict r2 c2 r1 c1 := by
  have h1 : (r1 - r2).natAbs = (r2 - r1).natAbs := by omega
  have h2 : (c1 - c2).natAbs = (c2 - c1).natAbs := by omega
  rcases eq_or_ne c1 c2 with h | h
  · simp [conflict, h]
  · have h3 : (c1 == c2) = false := beq_eq_false_iff_ne.mpr h
    have h4 : (c2 == c1) = false := beq_eq_false_iff_ne.mpr h.symm
    simp [conflict, h1, h2, h3, h4]

lemma conflict_eq_true_iff (r1 c1 r2 c2 : Int) :
    conflict r1 c1 r2 c2 = true ↔ c1 = c2 ∨ |r1 - r2| = |c1 - c2| := by
  have h : (r1 - r2).natAbs = (c1 - c2).natAbs ↔ |r1 - r2| = |c1 - c2| := by
    rw [Int.abs_eq_natAbs, Int.abs_eq_natAbs]
    exact Int.natCast_inj.symm
  simp only [conflict, Bool.or_eq_true, beq_iff_eq, h]

lemma hasSupport_false_iff (d : Domains) (Xi : Nat) (vi : Int) (Xj : Nat) :
    hasSupport d Xi vi Xj = false ↔
      ∀ w ∈ d.getD Xj [], conflict Xi vi Xj w = true := by
  simp [hasSupport, List.any_eq_false]

lemma getD_length_le_maxDeg (nb : Neighbors) (i : Nat) :
    (nb.getD i []).length ≤ maxDeg nb := by
  induction nb generalizing i with
  | nil => simp [List.getD_eq_default]
  | cons a t ih =>
    cases i with
    | zero =>
      simp only [List.getD_cons_zero, maxDeg, List.map_cons, List.foldr_cons]
      exact Nat.le_max_left _ _
    | succ j =>
      have := ih j
      simp only [List.getD_cons_succ, maxDeg, List.map_cons,
        List.foldr_cons] at *
      exact le_trans this (Nat.le_max_right _ _)

lemma AC3aux_subset (nb : Neighbors) : ∀ (fuel : Nat) (d : Domains)
    (q : List (Nat × Nat)) (res : Domains × Bool),
    AC3aux nb fuel d q = some res →
    res.1.length = d.length ∧ ∀ i, ∀ v ∈ res.1.getD i [], v ∈ d.getD i [] := by
  intro fuel
  induction fuel with
  | zero => intro d q res h; exact absurd h (by simp [AC3aux])
  | succ fuel ih =>
    intro d q res h
    cases q with
    | nil =>
      simp only [AC3aux, Option.some.injEq] at h
      subst h
      exact ⟨rfl, fun i v hv => hv⟩
    | cons p rest =>
      obtain ⟨Xi, Xj⟩ := p
      cases hrem : (revise d Xi Xj).2 with
      | false =>
        simp only [AC3aux, hrem, Bool.false_eq_true, if_false] at h
        rw [revise_fst_of_false d Xi Xj hrem] at h
        exact ih d rest res h
      | true =>
        simp only [AC3aux, hrem, if_true] at h
        by_cases hemp : ((revise d Xi Xj).1.getD Xi []).isEmpty = true
        · rw [if_pos hemp] at h
          obtain rfl := Option.some.inj h
          exact ⟨revise_length d Xi Xj, revise_subset d Xi Xj⟩
        · rw [if_neg hemp] at h
          obtain ⟨h1, h2⟩ := ih _ _ _ h
          refine ⟨h1.trans (revise_length d Xi Xj), fun i v hv => ?_⟩
          exact revise_subset d Xi Xj i v (h2 i v hv)
lemma AC3aux_isSome (nb : Neighbors) : ∀ (fuel : Nat) (d : Domains)
    (q : List (Nat × Nat)),
    q.length + totalSize d * (maxDeg nb + 1) + 1 ≤ fuel →
    (AC3aux nb fuel d q).isSome = true := by
  intro fuel
  induction fuel with
  | zero => intro d q h; omega
  | succ fuel ih =>
    intro d q h
    cases q with
    | nil => simp [AC3aux]
    | cons p rest =>
      obtain ⟨Xi, Xj⟩ := p
      cases hrem : (revise d Xi Xj).2 with
      | false =>
        simp only [AC3aux, hrem, Bool.false_eq_true, if_false]
        rw [revise_fst_of_false d Xi Xj hrem]
        refine ih d rest ?_
        simp only [List.length_cons] at h
        omega
      | true =>
        simp only [AC3aux, hrem, if_true]
        by_cases hemp : ((revise d Xi Xj).1.getD Xi []).isEmpty = true
        · rw [if_pos hemp]; rfl
        · rw [if_neg hemp]
          refine ih _ _ ?_
          have hts : totalSize (revise d Xi Xj).1 < totalSize d :=
            revise_totalSize_lt d Xi Xj hrem
          have hdeg : (((nb.getD Xi []).filter (fun Xk => Xk != Xj)).map
              (fun Xk => (Xk, Xi))).length ≤ maxDeg nb := by
            rw [List.length_map]
            exact le_trans (List.length_filter_le _ _)
              (getD_length_le_maxDeg nb Xi)
          have hexp : (totalSize (revise d Xi Xj).1 + 1) * (maxDeg nb + 1)
              ≤ totalSize d * (maxDeg nb + 1) :=
            Nat.mul_le_mul_right _ (by omega)
          have hdist : (totalSize (revise d Xi Xj).1 + 1) * (maxDeg nb + 1)
              = totalSize (revise d Xi Xj).1 * (maxDeg nb + 1)
                + (maxDeg nb + 1) := by ring
          simp only [List.length_append, List.length_cons] at *
          omega

lemma AC3aux_false_empty (nb : Neighbors) : ∀ (fuel : Nat) (d : Domains)
    (q : List (Nat × Nat)) (d1 : Domains),
    AC3aux nb fuel d q = some (d1, false) →
    ∃ i, i < d1.length ∧ d1.getD i [] = [] := by
  intro fuel
  induction fuel with
  | zero => intro d q d1 h; exact absurd h (by simp [AC3aux])
  | succ fuel ih =>
    intro d q d1 h
    cases q with
    | nil =>
      simp only [AC3aux, Option.some.injEq, Prod.mk.injEq] at h
      exact absurd h.2 (by simp)
    | cons p rest =>
      obtain ⟨Xi, Xj⟩ := p
      cases hrem : (revise d Xi Xj).2 with
      | false =>
        simp only [AC3aux, hrem, Bool.false_eq_true, if_false] at h
        exact ih _ _ _ h
      | true =>
        simp only [AC3aux, hrem, if_true] at h
        by_cases hemp : ((revise d Xi Xj).1.getD Xi []).isEmpty = true
        · rw [if_pos hemp] at h
          obtain ⟨h1, -⟩ := Prod.mk.injEq .. ▸ Option.some.inj h
          refine ⟨Xi, ?_, ?_⟩
          · rw [← h1, revise_length]
            exact revise_lt_length d Xi Xj hrem
          · rw [← h1]
            exact List.isEmpty_iff.mp hemp
        · rw [if_neg hemp] at h
          exact ih _ _ _ h
lemma arcOk_of_revise_false (d : Domains) (Xi Xj : Nat)
    (h : (revise d Xi Xj).2 = false) : arcOk d Xi Xj := fun vi hvi =>
  (hasSupport_iff d Xi vi Xj).mp ((revise_false_iff d Xi Xj).mp h vi hvi)

lemma revise_false_of_arcOk (d : Domains) (Xi Xj : Nat)
    (h : arcOk d Xi Xj) : (revise d Xi Xj).2 = false :=
  (revise_false_iff d Xi Xj).mpr fun vi hvi =>
    (hasSupport_iff d Xi vi Xj).mpr (h vi hvi)

lemma arcOk_revise_self (d : Domains) (Xi Xj : Nat) (hne : Xj ≠ Xi) :
    arcOk (revise d Xi Xj).1 Xi Xj := by
  intro vi hvi
  have hs := revise_mem_kept d Xi Xj vi hvi
  obtain ⟨vj, hvj, hc⟩ := (hasSupport_iff d Xi vi Xj).mp hs
  exact ⟨vj, by rwa [revise_getD_ne d Xj hne], hc⟩

lemma arcOk_revise_target (d : Domains) (Xi Xj : Nat) (hne : Xj ≠ Xi)
    (h : arcOk d Xj Xi) : arcOk (revise d Xi Xj).1 Xj Xi := by
  intro vi hvi
  rw [revise_getD_ne d Xj hne] at hvi
  obtain ⟨w, hw, hc⟩ := h vi hvi
  refine ⟨w, ?_, hc⟩
  rw [revise_getD_self]
  refine List.mem_filter.mpr ⟨hw, ?_⟩
  refine (hasSupport_iff d Xi w Xj).mpr ⟨vi, hvi, ?_⟩
  rw [conflict_comm]
  exact hc

lemma arcOk_revise_other (d : Domains) (Xi Xj a b : Nat) (hb : b ≠ Xi)
    (h : arcOk d a b) : arcOk (revise d Xi Xj).1 a b := by
  intro vi hvi
  obtain ⟨w, hw, hc⟩ := h vi (revise_subset d Xi Xj a vi hvi)
  exact ⟨w, by rwa [revise_getD_ne d Xj hb], hc⟩

lemma queueWF_tail {nb : Neighbors} {n : Nat} {p : Nat × Nat}
    {rest : List (Nat × Nat)} (h : queueWF nb n (p :: rest)) :
    queueWF nb n rest := fun q hq => h q (List.mem_cons_of_mem p hq)

lemma queueWF_step {nb : Neighbors} {n : Nat} {Xi Xj : Nat}
    {rest : List (Nat × Nat)} (hnb : nbrsOK nb n)
    (hw : queueWF nb n ((Xi, Xj) :: rest)) :
    queueWF nb n (rest ++ ((nb.getD Xi []).filter (fun Xk => Xk != Xj)).map
      (fun Xk => (Xk, Xi))) := by
  intro p hp
  rcases List.mem_append.mp hp with hp | hp
  · exact hw p (List.mem_cons_of_mem _ hp)
  · obtain ⟨Xk, hXk, rfl⟩ := List.mem_map.mp hp
    have hXk' := (List.mem_filter.mp hXk).1
    have hXi := (hw (Xi, Xj) (List.mem_cons_self _ _)).1
    obtain ⟨h1, -, h3⟩ := hnb Xi hXi Xk hXk'
    exact ⟨h1, h3⟩

lemma invAC_step {nb : Neighbors} {n : Nat} {d : Domains} {Xi Xj : Nat}
    {rest : List (Nat × Nat)} (hnb : nbrsOK nb n)
    (hw : queueWF nb n ((Xi, Xj) :: rest))
    (hinv : invAC nb n d ((Xi, Xj) :: rest)) :
    invAC nb n (revise d Xi Xj).1
      (rest ++ ((nb.getD Xi []).filter (fun Xk => Xk != Xj)).map
        (fun Xk => (Xk, Xi))) := by
  have hXi := (hw (Xi, Xj) (List.mem_cons_self _ _)).1
  have hXjXi := (hw (Xi, Xj) (List.mem_cons_self _ _)).2
  have hne : Xj ≠ Xi := (hnb Xi hXi Xj hXjXi).2.1
  intro a ha b hb
  rcases hinv a ha b hb with hmem | hok
  · rcases List.mem_cons.mp hmem with heq | hmem
    · obtain ⟨rfl, rfl⟩ := Prod.mk.injEq .. ▸ heq
      exact Or.inr (arcOk_revise_self d a b hne)
    · exact Or.inl (List.mem_append_left _ hmem)
  · by_cases hbXi : b = Xi
    · subst hbXi
      by_cases haXj : a = Xj
      · subst haXj
        exact Or.inr (arcOk_revise_target d b a hne hok)
      · refine Or.inl (List.mem_append_right _ ?_)
        have hmemnb : a ∈ nb.getD b [] := (hnb a ha b hb).2.2
        refine List.mem_map.mpr ⟨a, List.mem_filter.mpr ⟨hmemnb, ?_⟩, rfl⟩
        exact bne_iff_ne.mpr haXj
    · exact Or.inr (arcOk_revise_other d Xi Xj a b hbXi hok)

lemma AC3aux_arcConsistent (nb : Neighbors) (n : Nat) (hnb : nbrsOK nb n) :
    ∀ (fuel : Nat) (d : Domains) (q : List (Nat × Nat)) (d1 : Domains),
    queueWF nb n q → invAC nb n d q →
    AC3aux nb fuel d q = some (d1, true) → arcConsistent d1 nb n := by
  intro fuel
  induction fuel with
  | zero => intro d q d1 _ _ h; exact absurd h (by simp [AC3aux])
  | succ fuel ih =>
    intro d q d1 hw hinv h
    cases q with
    | nil =>
      simp only [AC3aux, Option.some.injEq, Prod.mk.injEq] at h
      obtain ⟨rfl, -⟩ := h
      intro Xi hXi Xj hXj
      rcases hinv Xi hXi Xj hXj with hmem | hok
      · exact absurd hmem (List.not_mem_nil _)
      · exact hok
    | cons p rest =>
      obtain ⟨Xi, Xj⟩ := p
      cases hrem : (revise d Xi Xj).2 with
      | false =>
        simp only [AC3aux, hrem, Bool.false_eq_true, if_false] at h
        rw [revise_fst_of_false d Xi Xj hrem] at h
        refine ih d rest d1 (queueWF_tail hw) ?_ h
        intro a ha b hb
        rcases hinv a ha b hb with hmem | hok
        · rcases List.mem_cons.mp hmem with heq | hmem
          · obtain ⟨rfl, rfl⟩ := Prod.mk.injEq .. ▸ heq
            exact Or.inr (arcOk_of_revise_false d a b hrem)
          · exact Or.inl hmem
        · exact Or.inr hok
      | true =>
        simp only [AC3aux, hrem, if_true] at h
        by_cases hemp : ((revise d Xi Xj).1.getD Xi []).isEmpty = true
        · rw [if_pos hemp] at h
          obtain ⟨-, h2⟩ := Prod.mk.injEq .. ▸ Option.some.inj h
          exact absurd h2 (by simp)
        · rw [if_neg hemp] at h
          exact ih _ _ _ (queueWF_step hnb hw) (invAC_step hnb hw hinv) h
lemma AC3aux_removed_just (nb : Neighbors) (n : Nat) (hnb : nbrsOK nb n) :
    ∀ (fuel : Nat) (d : Domains) (q : List (Nat × Nat))
    (res : Domains × Bool), queueWF nb n q → AC3aux nb fuel d q = some res →
    ∀ Xi v, v ∈ d.getD Xi [] → v ∉ res.1.getD Xi [] →
    ∃ Xj ∈ nb.getD Xi [], ∀ w ∈ res.1.getD Xj [],
      conflict Xi v Xj w = true := by
  intro fuel
  induction fuel with
  | zero => intro d q res _ h; exact absurd h (by simp [AC3aux])
  | succ fuel ih =>
    intro d q res hw h Xi v hv hv2
    cases q with
    | nil =>
      simp only [AC3aux, Option.some.injEq] at h
      subst h
      exact absurd hv hv2
    | cons p rest =>
      obtain ⟨Xi0, Xj0⟩ := p
      have harc := hw (Xi0, Xj0) (List.mem_cons_self _ _)
      cases hrem : (revise d Xi0 Xj0).2 with
      | false =>
        simp only [AC3aux, hrem, Bool.false_eq_true, if_false] at h
        rw [revise_fst_of_false d Xi0 Xj0 hrem] at h
        exact ih d rest res (queueWF_tail hw) h Xi v hv hv2
      | true =>
        simp only [AC3aux, hrem, if_true] at h
        by_cases hemp : ((revise d Xi0 Xj0).1.getD Xi0 []).isEmpty = true
        · rw [if_pos hemp] at h
          obtain rfl := Option.some.inj h
          by_cases hXi : Xi = Xi0
          · subst hXi
            have hns := revise_mem_removed d Xi Xj0 v hv hv2
            refine ⟨Xj0, harc.2, fun w hw' => ?_⟩
            exact (hasSupport_false_iff d Xi v Xj0).mp hns w
              (revise_subset d Xi Xj0 Xj0 w hw')
          · rw [revise_getD_ne d Xj0 hXi] at hv2
            exact absurd hv hv2
        · rw [if_neg hemp] at h
          by_cases hmem : v ∈ (revise d Xi0 Xj0).1.getD Xi []
          · exact ih _ _ _ (queueWF_step hnb hw) h Xi v hmem hv2
          · have hXi : Xi = Xi0 := by
              by_contra hne
              rw [revise_getD_ne d Xj0 hne] at hmem
              exact hmem hv
            subst hXi
            have hns := revise_mem_removed d Xi Xj0 v hv hmem
            refine ⟨Xj0, harc.2, fun w hw' => ?_⟩
            have hsub := (AC3aux_subset nb fuel _ _ _ h).2 Xj0 w hw'
            exact (hasSupport_false_iff d Xi v Xj0).mp hns w
              (revise_subset d Xi Xj0 Xj0 w hsub)

lemma AC3aux_noop (nb : Neighbors) (n : Nat) (d : Domains)
    (hcons : arcConsistent d nb n) : ∀ (q : List (Nat × Nat)) (fuel : Nat),
    queueWF nb n q → q.length < fuel →
    AC3aux nb fuel d q = some (d, true) := by
  intro q
  induction q with
  | nil =>
    intro fuel _ hfuel
    cases fuel with
    | zero => omega
    | succ fuel => rfl
  | cons p rest ih =>
    intro fuel hw hfuel
    obtain ⟨Xi, Xj⟩ := p
    cases fuel with
    | zero => exact absurd hfuel (by simp)
    | succ fuel =>
      have harc := hw (Xi, Xj) (List.mem_cons_self _ _)
      have hok : arcOk d Xi Xj := hcons Xi harc.1 Xj harc.2
      have hrem : (revise d Xi Xj).2 = false := revise_false_of_arcOk d Xi Xj hok
      simp only [AC3aux, hrem, Bool.false_eq_true, if_false]
      rw [revise_fst_of_false d Xi Xj hrem]
      refine ih fuel (queueWF_tail hw) ?_
      simp only [List.length_cons] at hfuel
      omega

lemma initQueue_wf (nb : Neighbors) (n : Nat) : queueWF nb n (initQueue nb n) := by
  intro p hp
  obtain ⟨r, hr, hp2⟩ := List.mem_flatMap.mp hp
  obtain ⟨b, hb, rfl⟩ := List.mem_map.mp hp2
  exact ⟨List.mem_range.mp hr, hb⟩

lemma initQueue_mem (nb : Neighbors) (n : Nat) {Xi Xj : Nat} (h1 : Xi < n)
    (h2 : Xj ∈ nb.getD Xi []) : (Xi, Xj) ∈ initQueue nb n :=
  List.mem_flatMap.mpr ⟨Xi, List.mem_range.mpr h1,
    List.mem_map.mpr ⟨Xj, h2, rfl⟩⟩

lemma initQueue_inv (nb : Neighbors) (n : Nat) (d : Domains) :
    invAC nb n d (initQueue nb n) := fun _ hXi _ hXj =>
  Or.inl (initQueue_mem nb n hXi hXj)

lemma AC3_eq_aux (d : Domains) (nb : Neighbors) (n : Nat) :
    ∃ r, AC3aux nb (ac3Fuel d nb (initQueue nb n)) d (initQueue nb n)
      = some r ∧ AC3 d nb n = r := by
  have h := AC3aux_isSome nb (ac3Fuel d nb (initQueue nb n)) d
    (initQueue nb n) (le_refl _)
  obtain ⟨r, hr⟩ := Option.isSome_iff_exists.mp h
  exact ⟨r, hr, by simp [AC3, hr]⟩

/-- C5: `conflict(row1, col1, row2, col2)` returns true iff the columns
coincide or the row distance equals the column distance; it is symmetric
under swapping the two (row, col) pairs (side-effect-freeness is inherent:
the embedding is a pure function of its four arguments); and two distinct
rows sharing a column always conflict. -/
theorem conflict_spec (r1 c1 r2 c2 : Int) :
    (conflict r1 c1 r2 c2 = true ↔ c1 = c2 ∨ |r1 - r2| = |c1 - c2|) ∧
    conflict r1 c1 r2 c2 = conflict r2 c2 r1 c1 ∧
    (r1 ≠ r2 → conflict r1 c1 r2 c1 = true) :=
  ⟨conflict_eq_true_iff r1 c1 r2 c2, conflict_comm r1 c1 r2 c2,
    fun _ => by simp [conflict]⟩

/-- Witness for `conflict_spec`: rows 0 and 1 with the shared column 5
conflict. -/
theorem conflict_spec_witness : conflict 0 5 1 5 = true :=
  (conflict_spec 0 5 1 99).2.2 (by decide)

/-- C6: `order_domain_values` returns exactly the values of the row's
domain (a permutation), in ascending order of constraining cost, and the
sort is stable: for every cost level, the values of that cost appear in
their original domain iteration order. -/
theorem order_domain_values_spec (row : Nat) (domains : Domains)
    (neighbors : Neighbors) :
    (order_domain_values row domains neighbors).Perm (domains.getD row []) ∧
    (order_domain_values row domains neighbors).Pairwise
      (fun c1 c2 => constraining_cost row domains neighbors c1 ≤
        constraining_cost row domains neighbors c2) ∧
    ∀ k : Nat, (order_domain_values row domains neighbors).filter
        (fun c => constraining_cost row domains neighbors c == k)
      = (domains.getD row []).filter
        (fun c => constraining_cost row domains neighbors c == k) := by
  haveI hto : IsTotal Int (fun c1 c2 =>
      constraining_cost row domains neighbors c1 ≤
        constraining_cost row domains neighbors c2) :=
    ⟨fun a b => Nat.le_total _ _⟩
  haveI htr : IsTrans Int (fun c1 c2 =>
      constraining_cost row domains neighbors c1 ≤
        constraining_cost row domains neighbors c2) :=
    ⟨fun _ _ _ hab hbc => Nat.le_trans hab hbc⟩
  refine ⟨List.perm_insertionSort _ _, List.sorted_insertionSort _ _, ?_⟩
  intro k
  set r : Int → Int → Prop := fun c1 c2 =>
    constraining_cost row domains neighbors c1 ≤
      constraining_cost row domains neighbors c2 with hr
  set p : Int → Bool :=
    fun c => constraining_cost row domains neighbors c == k with hp
  set l := domains.getD row [] with hl
  have hpair : (l.filter p).Pairwise r := by
    refine List.pairwise_of_forall_mem_list ?_
    intro x hx y hy
    have hxk : constraining_cost row domains neighbors x = k := by
      simpa [hp] using (List.mem_filter.mp hx).2
    have hyk : constraining_cost row domains neighbors y = k := by
      simpa [hp] using (List.mem_filter.mp hy).2
    simp [hr, hxk, hyk]
  have h1 : List.Sublist (l.filter p) (l.insertionSort r) :=
    List.sublist_insertionSort hpair (List.filter_sublist l)
  have h2 : (l.filter p).filter p = l.filter p :=
    List.filter_eq_self.mpr fun a ha => (List.mem_filter.mp ha).2
  have h3 : List.Sublist (l.filter p) ((l.insertionSort r).filter p) := by
    rw [← h2]
    exact h1.filter p
  have h4 : ((l.insertionSort r).filter p).length = (l.filter p).length :=
    ((List.perm_insertionSort _ l).filter p).length_eq
  exact (h3.eq_of_length (by rw [h4])).symm

/-- Counterexample for C9 as stated: `select_unassigned_row` sorts its
`unassigned_rows` argument in place (`unassigned_rows.sort(...)` in the
source), so the caller's list is mutated: on domains `{0: {0,1}, 1: {0}}`
the list `[0, 1]` reads `[1, 0]` after the call. -/
theorem select_unassigned_row_mutates :
    ¬((select_unassigned_row [[0, 1], [0]] [0, 1] [[1], [0]]).2 = [0, 1]) := by
  decide

/-- C9 amended: neither heuristic mutates the domains, the neighbor
relation or the assignment (the embedding returns no altered state for
them because the source applies no mutating operation to them), and
`order_domain_values` mutates nothing at all (it sorts a fresh copy, a
permutation of the row's domain); but `select_unassigned_row` reorders its
`unassigned_rows` list argument in place — the post-call list is a
(sorted) permutation of the input list. -/
theorem heuristics_mutation_extent :
    (∀ (domains : Domains) (u : List Nat) (neighbors : Neighbors),
      ((select_unassigned_row domains u neighbors).2).Perm u) ∧
    (∀ (row : Nat) (domains : Domains) (neighbors : Neighbors),
      (order_domain_values row domains neighbors).Perm
        (domains.getD row [])) :=
  ⟨fun _ u _ => List.perm_insertionSort _ u,
   fun _ _ _ => List.perm_insertionSort _ _⟩

lemma AC3_length (d : Domains) (nb : Neighbors) (n : Nat) :
    (AC3 d nb n).1.length = d.length := by
  obtain ⟨r, hsome, heq⟩ := AC3_eq_aux d nb n
  rw [heq]
  exact (AC3aux_subset nb _ d _ r hsome).1

lemma AC3_subset (d : Domains) (nb : Neighbors) (n : Nat) :
    ∀ i, ∀ v ∈ (AC3 d nb n).1.getD i [], v ∈ d.getD i [] := by
  obtain ⟨r, hsome, heq⟩ := AC3_eq_aux d nb n
  rw [heq]
  exact (AC3aux_subset nb _ d _ r hsome).2

lemma snapshotDoms_length (d : Domains) (n : Nat) :
    (snapshotDoms d n).length = n := by
  simp [snapshotDoms]

lemma snapshotDoms_eq_self (d : Domains) (n : Nat) (h : d.length = n) :
    snapshotDoms d n = d := by
  refine List.ext_getElem? fun i => ?_
  rcases Nat.lt_or_ge i n with hi | hi
  · rw [List.getElem?_eq_getElem (by simpa [snapshotDoms_length]),
      List.getElem?_eq_getElem (by omega : i < d.length)]
    simp only [snapshotDoms, Option.some.injEq]
    rw [List.getElem_map, List.getElem_range,
      List.getD_eq_getElem _ _ (by omega : i < d.length)]
  · rw [List.getElem?_eq_none (by simpa [snapshotDoms_length]),
      List.getElem?_eq_none (by omega)]

lemma restoreDoms_length (cur saved : Domains) : ∀ n : Nat,
    (restoreDoms cur saved n).length = cur.length := by
  intro n
  induction n with
  | zero => rfl
  | succ n ih => simp [restoreDoms, ih]

lemma restoreDoms_getD (cur saved : Domains) : ∀ (n i : Nat),
    (restoreDoms cur saved n).getD i []
      = if i < n ∧ i < cur.length then saved.getD i [] else cur.getD i [] := by
  intro n
  induction n with
  | zero => intro i; simp [restoreDoms]
  | succ n ih =>
    intro i
    rcases eq_or_ne i n with rfl | hne
    · rcases Nat.lt_or_ge i cur.length with hcur | hcur
      · rw [restoreDoms, getD_set_eq _ _ _ _ (by rwa [restoreDoms_length])]
        simp [hcur]
      · rw [restoreDoms,
          List.set_eq_of_length_le (by rwa [restoreDoms_length]), ih]
        simp [hcur, Nat.not_lt.mpr hcur]
    · rw [restoreDoms, getD_set_ne _ _ _ hne, ih]
      rcases Nat.lt_or_ge i n with hi | hi
      · simp [hi, Nat.lt_succ_of_lt hi]
      · have h1 : ¬(i < n) := by omega
        have h2 : ¬(i < n + 1) := by omega
        simp [h1, h2]

lemma restoreDoms_eq_saved (cur saved : Domains) (n : Nat)
    (hc : cur.length = n) (hs : saved.length = n) :
    restoreDoms cur saved n = saved := by
  refine List.ext_getElem? fun i => ?_
  rcases Nat.lt_or_ge i n with hi | hi
  · rw [List.getElem?_eq_getElem (by rw [restoreDoms_length]; omega),
      List.getElem?_eq_getElem (by omega : i < saved.length),
      Option.some.injEq,
      ← List.getD_eq_getElem _ [] (by rw [restoreDoms_length]; omega),
      ← List.getD_eq_getElem _ [] (by omega : i < saved.length),
      restoreDoms_getD]
    simp [hi, hc ▸ hi]
  · rw [List.getElem?_eq_none (by rw [restoreDoms_length]; omega),
      List.getElem?_eq_none (by omega)]

lemma restore_exact (d cur : Domains) (n : Nat) (hd : d.length = n)
    (hcur : cur.length = n) : restoreDoms cur (snapshotDoms d n) n = d := by
  rw [restoreDoms_eq_saved cur _ n hcur (snapshotDoms_length d n),
    snapshotDoms_eq_self d n hd]

lemma set_none_of_unassigned (a : Assignment) (row : Nat)
    (h : a.getD row none = none) : a.set row none = a := h ▸ list_set_getD a row none

lemma set_then_clear (a : Assignment) (row : Nat) (col : Int)
    (h : a.getD row none = none) :
    (a.set row (some col)).set row none = a := by
  rw [List.set_set]
  exact set_none_of_unassigned a row h

lemma mem_unassignedRows {a : Assignment} {n r : Nat} :
    r ∈ unassignedRows a n ↔ r < n ∧ a.getD r none = none := by
  simp [unassignedRows, List.mem_filter, List.mem_range,
    Option.isNone_iff_eq_none]

lemma select_unassigned_row_mem (d : Domains) (u : List Nat)
    (nb : Neighbors) (h : u ≠ []) : (select_unassigned_row d u nb).1 ∈ u := by
  have hperm := List.perm_insertionSort
    (fun r1 r2 => mrvLe d nb r1 r2 = true) u
  have hne : u.insertionSort (fun r1 r2 => mrvLe d nb r1 r2 = true) ≠ [] := by
    intro h0
    rw [h0] at hperm
    exact h hperm.symm.eq_nil
  exact hperm.mem_iff.mp (headD_mem_of_ne_nil hne 0)

lemma btTryCols_restore (nb : Neighbors) (n : Nat)
    (bt : Domains → Assignment → Domains × Assignment × Bool)
    (hbt : ∀ d a, d.length = n → (bt d a).2.2 = false →
      (bt d a).1 = d ∧ (bt d a).2.1 = a) :
    ∀ (cols : List Int) (d : Domains) (a : Assignment) (row : Nat),
    d.length = n → a.getD row none = none →
    (btTryCols bt nb n row d a cols).2.2 = false →
    (btTryCols bt nb n row d a cols).1 = d ∧
      (btTryCols bt nb n row d a cols).2.1 = a := by
  intro cols
  induction cols with
  | nil => intro d a row _ _ _; exact ⟨rfl, rfl⟩
  | cons col rest ih =>
    intro d a row hd hrow hf
    by_cases hconf : conflictsWithAssigned row col a n = true
    · simp only [btTryCols, hconf, if_true] at hf ⊢
      exact ih d a row hd hrow hf
    · have hlen1 : (AC3 (d.set row [col]) nb n).1.length = n := by
        rw [AC3_length, List.length_set, hd]
      simp only [btTryCols] at hf ⊢
      rw [if_neg hconf] at hf ⊢
      by_cases hac3 : (AC3 (d.set row [col]) nb n).2 = true
      · rw [if_pos hac3] at hf ⊢
        by_cases hbtr : (bt (AC3 (d.set row [col]) nb n).1
            (a.set row (some col))).2.2 = true
        · rw [if_pos hbtr] at hf
          exact absurd hf (by simp [hbtr])
        · rw [if_neg hbtr] at hf ⊢
          obtain ⟨hb1, hb2⟩ := hbt _ _ hlen1 (Bool.eq_false_iff.mpr hbtr)
          have hdeq : restoreDoms
              (bt (AC3 (d.set row [col]) nb n).1 (a.set row (some col))).1
              (snapshotDoms d n) n = d := by
            rw [hb1]
            exact restore_exact d _ n hd hlen1
          have haeq : (bt (AC3 (d.set row [col]) nb n).1
              (a.set row (some col))).2.1.set row none = a := by
            rw [hb2]
            exact set_then_clear a row col hrow
          rw [hdeq, haeq] at hf ⊢
          exact ih d a row hd hrow hf
      · rw [if_neg hac3] at hf ⊢
        have hdeq : restoreDoms (AC3 (d.set row [col]) nb n).1
            (snapshotDoms d n) n = d := restore_exact d _ n hd hlen1
        have haeq : (a.set row (some col)).set row none = a :=
          set_then_clear a row col hrow
        rw [hdeq, haeq] at hf ⊢
        exact ih d a row hd hrow hf

lemma backtracking_search_restore : ∀ (fuel : Nat) (d : Domains)
    (nb : Neighbors) (a : Assignment) (n : Nat), d.length = n →
    (backtracking_search fuel d nb a n).2.2 = false →
    (backtracking_search fuel d nb a n).1 = d ∧
      (backtracking_search fuel d nb a n).2.1 = a := by
  intro fuel
  induction fuel with
  | zero => intro d nb a n _ _; exact ⟨rfl, rfl⟩
  | succ fuel ih =>
    intro d nb a n hd hf
    by_cases hemp : (unassignedRows a n).isEmpty = true
    · simp [backtracking_search, hemp] at hf
    · have hne : unassignedRows a n ≠ [] := by
        intro h0
        rw [h0] at hemp
        exact hemp rfl
      obtain ⟨hrlt, hrnone⟩ := mem_unassignedRows.mp
        (select_unassigned_row_mem d (unassignedRows a n) nb hne)
      simp only [backtracking_search] at hf ⊢
      rw [if_neg hemp] at hf ⊢
      exact btTryCols_restore nb n _
        (fun d' a' hd' hf' => ih d' nb a' n hd' hf') _ d a _ hd hrnone hf

/-- C3: whenever a tentative assignment inside the search driver fails
(the AC3 call reports contradiction or the recursive search fails), the
driver clears the row's assignment entry and restores every domain
bit-for-bit from the snapshot; consequently whenever `backtracking_search`
returns failure, the returned domains and assignment equal exactly the
values at entry to the call. The hypothesis states only that the domain
table has one entry per variable, as in every call made by the solver. -/
theorem backtracking_search_restores (fuel : Nat) (d : Domains)
    (nb : Neighbors) (a : Assignment) (n : Nat) (hd : d.length = n)
    (hf : (backtracking_search fuel d nb a n).2.2 = false) :
    (backtracking_search fuel d nb a n).1 = d ∧
      (backtracking_search fuel d nb a n).2.1 = a :=
  backtracking_search_restore fuel d nb a n hd hf

/-- Witness for `backtracking_search_restores`: the failing 2-queens search
returns with the full domains and the empty assignment it was given. -/
theorem backtracking_search_restores_witness :
    (backtracking_search 3 [[0, 1], [0, 1]] [[1], [0]] [none, none] 2).1
        = [[0, 1], [0, 1]] ∧
      (backtracking_search 3 [[0, 1], [0, 1]] [[1], [0]]
        [none, none] 2).2.1 = [none, none] :=
  backtracking_search_restores 3 [[0, 1], [0, 1]] [[1], [0]] [none, none] 2
    (by decide) (by decide)

lemma conflictsWithAssigned_false_iff (row : Nat) (col : Int)
    (a : Assignment) (n : Nat) :
    conflictsWithAssigned row col a n = false ↔
      ∀ r2, r2 < n → ∀ c2, a.getD r2 none = some c2 →
        conflict row col r2 c2 = false := by
  simp only [conflictsWithAssigned, List.any_eq_false, List.mem_range]
  constructor
  · intro h r2 hr2 c2 hc2
    have := h r2 hr2
    rw [hc2] at this
    simpa using this
  · intro h r2 hr2
    cases hc : a.getD r2 none with
    | none => simp
    | some c2 => simpa using h r2 hr2 c2 hc

lemma noConflicts_set (a : Assignment) (n row : Nat) (col : Int)
    (hnc : noConflicts a n)
    (hq : conflictsWithAssigned row col a n = false) :
    noConflicts (a.set row (some col)) n := by
  rcases Nat.lt_or_ge row a.length with hrl | hrl
  · intro r1 h1 r2 h2 hne c1 c2 hc1 hc2
    have hq' := (conflictsWithAssigned_false_iff row col a n).mp hq
    rcases eq_or_ne r1 row with rfl | hne1
    · rw [getD_set_eq _ _ _ _ hrl] at hc1
      obtain rfl := Option.some.inj hc1
      rw [getD_set_ne _ _ _ (Ne.symm hne)] at hc2
      exact hq' r2 h2 c2 hc2
    · rw [getD_set_ne _ _ _ hne1] at hc1
      rcases eq_or_ne r2 row with rfl | hne2
      · rw [getD_set_eq _ _ _ _ hrl] at hc2
        obtain rfl := Option.some.inj hc2
        rw [conflict_comm]
        exact hq' r1 h1 c1 hc1
      · rw [getD_set_ne _ _ _ hne2] at hc2
        exact hnc r1 h1 r2 h2 hne c1 c2 hc1 hc2
  · rwa [List.set_eq_of_length_le hrl]

lemma assignedInRange_set (a : Assignment) (n row : Nat) (col : Int)
    (h : assignedInRange a n) (hcol : 0 ≤ col ∧ col < (n : Int)) :
    assignedInRange (a.set row (some col)) n := by
  rcases Nat.lt_or_ge row a.length with hrl | hrl
  · intro r hr c hc
    rcases eq_or_ne r row with rfl | hne
    · rw [getD_set_eq _ _ _ _ hrl] at hc
      obtain rfl := Option.some.inj hc
      exact hcol
    · rw [getD_set_ne _ _ _ hne] at hc
      exact h r hr c hc
  · rwa [List.set_eq_of_length_le hrl]

lemma colsInRange_set (d : Domains) (n row : Nat) (l : List Int)
    (hd : colsInRange d n) (hl : ∀ v ∈ l, 0 ≤ v ∧ v < (n : Int)) :
    colsInRange (d.set row l) n := by
  rcases Nat.lt_or_ge row d.length with hrl | hrl
  · intro i v hv
    rcases eq_or_ne i row with rfl | hne
    · rw [getD_set_eq _ _ _ _ hrl] at hv
      exact hl v hv
    · rw [getD_set_ne _ _ _ hne] at hv
      exact hd i v hv
  · rwa [List.set_eq_of_length_le hrl]

lemma colsInRange_AC3 (d : Domains) (nb : Neighbors) (n m : Nat)
    (hd : colsInRange d n) : colsInRange (AC3 d nb m).1 n :=
  fun i v hv => hd i v (AC3_subset d nb m i v hv)

lemma complete_of_empty_unassigned (a : Assignment) (n : Nat)
    (h : (unassignedRows a n).isEmpty = true) :
    ∀ r, r < n → ∃ c, a.getD r none = some c := by
  intro r hr
  have hnil := List.isEmpty_iff.mp h
  have := List.filter_eq_nil_iff.mp hnil r (List.mem_range.mpr hr)
  cases hc : a.getD r none with
  | none => rw [hc] at this; simp at this
  | some c => exact ⟨c, rfl⟩

lemma getD_replicate_none (n r : Nat) :
    (List.replicate n (none : Option Int)).getD r none = none := by
  induction n generalizing r with
  | zero => simp [List.getD_eq_default]
  | succ n ih =>
    cases r with
    | zero => rfl
    | succ r =>
      rw [List.replicate_succ, List.getD_cons_succ]
      exact ih r

lemma btTryCols_sound (nb : Neighbors) (n : Nat)
    (bt : Domains → Assignment → Domains × Assignment × Bool)
    (hbt : ∀ d a, d.length = n → colsInRange d n → noConflicts a n →
      assignedInRange a n → (bt d a).2.2 = true →
      (∀ r, r < n → ∃ c, (bt d a).2.1.getD r none = some c) ∧
        noConflicts (bt d a).2.1 n ∧ assignedInRange (bt d a).2.1 n)
    (hbtres : ∀ d a, d.length = n → (bt d a).2.2 = false →
      (bt d a).1 = d ∧ (bt d a).2.1 = a) :
    ∀ (cols : List Int) (d : Domains) (a : Assignment) (row : Nat),
    d.length = n → colsInRange d n → noConflicts a n → assignedInRange a n →
    a.getD row none = none → (∀ c ∈ cols, c ∈ d.getD row []) →
    (btTryCols bt nb n row d a cols).2.2 = true →
    (∀ r, r < n →
        ∃ c, (btTryCols bt nb n row d a cols).2.1.getD r none = some c) ∧
      noConflicts (btTryCols bt nb n row d a cols).2.1 n ∧
      assignedInRange (btTryCols bt nb n row d a cols).2.1 n := by
  intro cols
  induction cols with
  | nil =>
    intro d a row _ _ _ _ _ _ hf
    exact absurd hf (by simp [btTryCols])
  | cons col rest ih =>
    intro d a row hd hdr hnc har hrow hcols hf
    have hcol : col ∈ d.getD row [] := hcols col (List.mem_cons_self _ _)
    have hcolr : 0 ≤ col ∧ col < (n : Int) := hdr row col hcol
    by_cases hconf : conflictsWithAssigned row col a n = true
    · simp only [btTryCols, hconf, if_true] at hf ⊢
      exact ih d a row hd hdr hnc har hrow
        (fun c hc => hcols c (List.mem_cons_of_mem _ hc)) hf
    · have hconf' : conflictsWithAssigned row col a n = false :=
        Bool.eq_false_iff.mpr hconf
      have hlen1 : (AC3 (d.set row [col]) nb n).1.length = n := by
        rw [AC3_length, List.length_set, hd]
      have hdr1 : colsInRange (AC3 (d.set row [col]) nb n).1 n :=
        colsInRange_AC3 _ nb n n (colsInRange_set d n row [col] hdr
          (fun v hv => by obtain rfl := List.mem_singleton.mp hv; exact hcolr))
      have hnc1 : noConflicts (a.set row (some col)) n :=
        noConflicts_set a n row col hnc hconf'
      have har1 : assignedInRange (a.set row (some col)) n :=
        assignedInRange_set a n row col har hcolr
      simp only [btTryCols] at hf ⊢
      rw [if_neg hconf] at hf ⊢
      by_cases hac3 : (AC3 (d.set row [col]) nb n).2 = true
      · rw [if_pos hac3] at hf ⊢
        by_cases hbtr : (bt (AC3 (d.set row [col]) nb n).1
            (a.set row (some col))).2.2 = true
        · rw [if_pos hbtr] at hf ⊢
          exact hbt _ _ hlen1 hdr1 hnc1 har1 hbtr
        · rw [if_neg hbtr] at hf ⊢
          obtain ⟨hb1, hb2⟩ := hbtres _ _ hlen1 (Bool.eq_false_iff.mpr hbtr)
          have hdeq : restoreDoms
              (bt (AC3 (d.set row [col]) nb n).1 (a.set row (some col))).1
              (snapshotDoms d n) n = d := by
            rw [hb1]
            exact restore_exact d _ n hd hlen1
          have haeq : (bt (AC3 (d.set row [col]) nb n).1
              (a.set row (some col))).2.1.set row none = a := by
            rw [hb2]
            exact set_then_clear a row col hrow
          rw [hdeq, haeq] at hf ⊢
          exact ih d a row hd hdr hnc har hrow
            (fun c hc => hcols c (List.mem_cons_of_mem _ hc)) hf
      · rw [if_neg hac3] at hf ⊢
        have hdeq : restoreDoms (AC3 (d.set row [col]) nb n).1
            (snapshotDoms d n) n = d := restore_exact d _ n hd hlen1
        have haeq : (a.set row (some col)).set row none = a :=
          set_then_clear a row col hrow
        rw [hdeq, haeq] at hf ⊢
        exact ih d a row hd hdr hnc har hrow
          (fun c hc => hcols c (List.mem_cons_of_mem _ hc)) hf

lemma btSearch_sound : ∀ (fuel : Nat) (d : Domains) (nb : Neighbors)
    (a : Assignment) (n : Nat),
    d.length = n → colsInRange d n → noConflicts a n → assignedInRange a n →
    (backtracking_search fuel d nb a n).2.2 = true →
    (∀ r, r < n →
        ∃ c, (backtracking_search fuel d nb a n).2.1.getD r none = some c) ∧
      noConflicts (backtracking_search fuel d nb a n).2.1 n ∧
      assignedInRange (backtracking_search fuel d nb a n).2.1 n := by
  intro fuel
  induction fuel with
  | zero =>
    intro d nb a n _ _ _ _ hf
    exact absurd hf (by simp [backtracking_search])
  | succ fuel ih =>
    intro d nb a n hd hdr hnc har hf
    by_cases hemp : (unassignedRows a n).isEmpty = true
    · simp only [backtracking_search, hemp, if_true] at hf ⊢
      exact ⟨complete_of_empty_unassigned a n hemp, hnc, har⟩
    · have hne : unassignedRows a n ≠ [] := by
        intro h0
        rw [h0] at hemp
        exact hemp rfl
      obtain ⟨hrlt, hrnone⟩ := mem_unassignedRows.mp
        (select_unassigned_row_mem d (unassignedRows a n) nb hne)
      simp only [backtracking_search] at hf ⊢
      rw [if_neg hemp] at hf ⊢
      refine btTryCols_sound nb n _
        (fun d' a' hd' hdr' hnc' har' hf' =>
          ih d' nb a' n hd' hdr' hnc' har' hf')
        (fun d' a' hd' hf' => backtracking_search_restore fuel d' nb a' n hd' hf')
        _ d a _ hd hdr hnc har hrnone ?_ hf
      intro c hc
      exact (List.mem_insertionSort _).mp hc

/-- C2: if `AC3` reports success, the resulting domains are arc consistent
(every remaining value has a support in every neighbor's domain), and every
value removed from a domain lacks a support: some neighbor's resulting
domain conflicts with it entirely. If `AC3` reports failure, it stopped
with some variable's domain empty. The hypothesis `nbrsOK` states that the
neighbor relation is in-range, irreflexive and symmetric, as holds for the
all-pairs relation the solver builds. -/
theorem AC3_spec (d : Domains) (nb : Neighbors) (n : Nat)
    (hnb : nbrsOK nb n) :
    ((AC3 d nb n).2 = true →
      arcConsistent (AC3 d nb n).1 nb n ∧
      ∀ Xi v, v ∈ d.getD Xi [] → v ∉ (AC3 d nb n).1.getD Xi [] →
        ∃ Xj ∈ nb.getD Xi [], ∀ w ∈ (AC3 d nb n).1.getD Xj [],
          conflict Xi v Xj w = true) ∧
    ((AC3 d nb n).2 = false →
      ∃ i, i < (AC3 d nb n).1.length ∧ (AC3 d nb n).1.getD i [] = []) := by
  obtain ⟨r, hsome, heq⟩ := AC3_eq_aux d nb n
  rw [heq]
  constructor
  · intro htrue
    have hr : AC3aux nb (ac3Fuel d nb (initQueue nb n)) d (initQueue nb n)
        = some (r.1, true) := by rwa [← htrue, Prod.mk.eta]
    constructor
    · exact AC3aux_arcConsistent nb n hnb _ d _ r.1 (initQueue_wf nb n)
        (initQueue_inv nb n d) hr
    · exact AC3aux_removed_just nb n hnb _ d _ r (initQueue_wf nb n) hsome
  · intro hfalse
    have hr : AC3aux nb (ac3Fuel d nb (initQueue nb n)) d (initQueue nb n)
        = some (r.1, false) := by rwa [← hfalse, Prod.mk.eta]
    exact AC3aux_false_empty nb _ d _ r.1 hr

/-- Witness for `AC3_spec`: on the two-variable instance with singleton
domains `{0}` and `{2}` (no conflicts), AC3 succeeds and its result is arc
consistent. -/
theorem AC3_spec_witness :
    arcConsistent (AC3 [[0], [2]] [[1], [0]] 2).1 [[1], [0]] 2 :=
  (((AC3_spec [[0], [2]] [[1], [0]] 2 (by decide)).1 (by decide))).1

/-- C7: running `AC3` on domains that are already arc consistent succeeds
and removes nothing: the returned domains are exactly the input domains. -/
theorem AC3_idempotent (d : Domains) (nb : Neighbors) (n : Nat)
    (hcons : arcConsistent d nb n) : AC3 d nb n = (d, true) := by
  have h := AC3aux_noop nb n d hcons (initQueue nb n)
    (ac3Fuel d nb (initQueue nb n)) (initQueue_wf nb n)
    (by simp only [ac3Fuel]; omega)
  simp [AC3, h]

/-- Witness for `AC3_idempotent`: the arc-consistent two-variable instance
with domains `{0}` and `{2}` is returned untouched, with success. -/
theorem AC3_idempotent_witness :
    AC3 [[0], [2]] [[1], [0]] 2 = ([[0], [2]], true) :=
  AC3_idempotent [[0], [2]] [[1], [0]] 2 (by decide)

/-- C8: the AC3 propagation loop always terminates: with the fuel `ac3Fuel`
the loop returns a result (it never runs out of fuel), `AC3` itself returns
that result, and a failure result carries an emptied domain while success
is only reported once the work queue is exhausted (the only `some` return
with an unexhausted queue is the failure return). -/
theorem AC3_terminates (d : Domains) (nb : Neighbors) (n : Nat) :
    ∃ r, AC3aux nb (ac3Fuel d nb (initQueue nb n)) d (initQueue nb n)
        = some r ∧ AC3 d nb n = r ∧
      (r.2 = false → ∃ i, i < r.1.length ∧ r.1.getD i [] = []) := by
  obtain ⟨r, hsome, heq⟩ := AC3_eq_aux d nb n
  refine ⟨r, hsome, heq, fun hfalse => ?_⟩
  have hr : AC3aux nb (ac3Fuel d nb (initQueue nb n)) d (initQueue nb n)
      = some (r.1, false) := by rwa [← hfalse, Prod.mk.eta]
  exact AC3aux_false_empty nb _ d _ r.1 hr

/-- Witness for `AC3_terminates`: instantiated on the full 2-queens
domains, where AC3 fails after emptying a domain. -/
theorem AC3_terminates_witness :
    ∃ r, AC3aux [[1], [0]]
        (ac3Fuel [[0, 1], [0, 1]] [[1], [0]] (initQueue [[1], [0]] 2))
        [[0, 1], [0, 1]] (initQueue [[1], [0]] 2) = some r ∧
      AC3 [[0, 1], [0, 1]] [[1], [0]] 2 = r ∧
      (r.2 = false → ∃ i, i < r.1.length ∧ r.1.getD i [] = []) :=
  AC3_terminates [[0, 1], [0, 1]] [[1], [0]] 2

/-- C10: neither `revise` nor `AC3` ever adds or replaces domain values:
each variable's domain after the call is a subset of its domain before the
call (and the set of variables is unchanged), whether or not the call
reports success. -/
theorem domains_only_shrink :
    (∀ (d : Domains) (Xi Xj : Nat), (revise d Xi Xj).1.length = d.length ∧
      ∀ i, ∀ v ∈ (revise d Xi Xj).1.getD i [], v ∈ d.getD i []) ∧
    (∀ (d : Domains) (nb : Neighbors) (n : Nat),
      (AC3 d nb n).1.length = d.length ∧
      ∀ i, ∀ v ∈ (AC3 d nb n).1.getD i [], v ∈ d.getD i []) := by
  constructor
  · intro d Xi Xj
    exact ⟨revise_length d Xi Xj, revise_subset d Xi Xj⟩
  · intro d nb n
    obtain ⟨r, hsome, heq⟩ := AC3_eq_aux d nb n
    rw [heq]
    exact AC3aux_subset nb _ d _ r hsome

/-- Witness for `domains_only_shrink`: a value surviving the failing AC3
run on the 2-queens instance was already present initially. -/
theorem domains_only_shrink_witness :
    (0 : Int) ∈ ([[0, 1], [0, 1]] : Domains).getD 1 [] :=
  (domains_only_shrink.2 [[0, 1], [0, 1]] [[1], [0]] 2).2 1 0 (by decide)

lemma initial_colsInRange (n : Nat) :
    colsInRange ((List.range n).map
      (fun _ => (List.range n).map (fun c : Nat => (c : Int)))) n := by
  intro i v hv
  rcases Nat.lt_or_ge i n with hi | hi
  · rw [List.getD_eq_getElem _ _ (by simpa using hi), List.getElem_map] at hv
    simp only [List.mem_map, List.mem_range] at hv
    obtain ⟨m, hm, rfl⟩ := hv
    exact ⟨Int.natCast_nonneg m, by exact_mod_cast hm⟩
  · rw [List.getD_eq_default _ _ (by simpa using hi)] at hv
    exact absurd hv (List.not_mem_nil v)

/-- C1: for every `n ≥ 1`, if `solve_nqueens_csp n` returns an assignment
rather than `None`, that assignment gives every row `0..n-1` a column in
`0..n-1`, and no two distinct rows conflict under `conflict`. -/
theorem solve_nqueens_csp_sound (n : Nat) (a : Assignment) (h1 : 1 ≤ n)
    (h2 : solve_nqueens_csp n = some a) :
    (∀ r, r < n → ∃ c, a.getD r none = some c ∧ 0 ≤ c ∧ c < (n : Int)) ∧
      noConflicts a n := by
  simp only [solve_nqueens_csp] at h2
  by_cases hac3 : (AC3 ((List.range n).map
      (fun _ => (List.range n).map (fun c : Nat => (c : Int))))
      ((List.range n).map (fun r => (List.range n).filter (fun x => x ≠ r)))
      n).2 = true
  · rw [if_pos hac3] at h2
    by_cases hbt : (backtracking_search (n + 1)
        (AC3 ((List.range n).map
          (fun _ => (List.range n).map (fun c : Nat => (c : Int))))
          ((List.range n).map
            (fun r => (List.range n).filter (fun x => x ≠ r))) n).1
        ((List.range n).map (fun r => (List.range n).filter (fun x => x ≠ r)))
        (List.replicate n none) n).2.2 = true
    · rw [if_pos hbt, Option.some.injEq] at h2
      subst h2
      have hd0len : ((List.range n).map
          (fun _ => (List.range n).map (fun c : Nat => (c : Int)))).length = n := by
        simp
      have hlen : (AC3 ((List.range n).map
          (fun _ => (List.range n).map (fun c : Nat => (c : Int))))
          ((List.range n).map
            (fun r => (List.range n).filter (fun x => x ≠ r))) n).1.length
          = n := by
        rw [AC3_length]
        exact hd0len
      have hdr := colsInRange_AC3 _
        ((List.range n).map (fun r => (List.range n).filter (fun x => x ≠ r)))
        n n (initial_colsInRange n)
      have hnc0 : noConflicts (List.replicate n (none : Option Int)) n := by
        intro r1 _ r2 _ _ c1 c2 hc1 _
        rw [getD_replicate_none] at hc1
        exact absurd hc1 (by simp)
      have har0 : assignedInRange (List.replicate n (none : Option Int)) n := by
        intro r _ c hc
        rw [getD_replicate_none] at hc
        exact absurd hc (by simp)
      obtain ⟨hcomp, hnc, har⟩ := btSearch_sound (n + 1) _ _ _ n hlen hdr
        hnc0 har0 hbt
      refine ⟨fun r hr => ?_, hnc⟩
      obtain ⟨c, hc⟩ := hcomp r hr
      exact ⟨c, hc, har r hr c hc⟩
    · rw [if_neg hbt] at h2
      exact absurd h2 (by simp)
  · rw [if_neg hac3] at h2
    exact absurd h2 (by simp)

/-- Witness for `solve_nqueens_csp_sound`: the 1-queen instance returns
`{0: 0}`, and row 0 indeed carries an in-range column. -/
theorem solve_nqueens_csp_sound_witness :
    ∃ c, ([some 0] : Assignment).getD 0 none = some c ∧ 0 ≤ c ∧
      c < ((1 : Nat) : Int) :=
  (solve_nqueens_csp_sound 1 [some 0] (by decide) (by decide)).1 0
    (by decide)

/-- C4: `solve_nqueens_csp(1)` returns the trivial single-row assignment
(row 0 to column 0), and for `n = 2` and `n = 3` it returns the explicit
no-solution value `None` (an ordinary return value of the embedding, not
an exception — the embedded functions are total). -/
theorem solve_nqueens_csp_small :
    solve_nqueens_csp 1 = some [some 0] ∧
    solve_nqueens_csp 2 = none ∧ solve_nqueens_csp 3 = none := by
  refine ⟨by decide, by decide, by decide⟩

end NQueens
